import Mathlib

/-!
# webpack.config.js

A verification development for the single source file of the repository,
the webpack configuration object assigned to module.exports.

The file is pure data, apart from four places where it depends on the
semantics of something it calls or hands to the bundler:

* the regular expression literals of the rules (the test fields);
* path.resolve and path.join of the runtime path module (POSIX flavour);
* the generator of the image rule (a filename template and an outputPath);
* the use arrays of the rules, which the loader runner of the bundler
  turns into calls of loader functions.

Each of these is embedded below next to the configuration value itself.
JavaScript strings are modelled by String, and by List Char where a
function walks over a string character by character. Every character the
configuration and the path module compare against is ASCII, so code units
and code points need not be told apart.

The build orchestrator of the specification (build graph and scheduler) is
no code of the repository; the last section of definitions models it from
the specification.
-/

namespace WebpackConfig

/-! ## Regular expression literals -/

/-- Abstract syntax of the regular expression literals occurring in the
configuration: literal characters, sequencing, alternation, the optional
quantifier and the end of input assertion. -/
inductive RegExp where
  | chr (c : Char)
  | empty
  | seq (a b : RegExp)
  | alt (a b : RegExp)
  | opt (a : RegExp)
  | eoi
  deriving DecidableEq, Repr

namespace RegExp

/-- The literal word w as a sequence of character atoms. -/
def lit : List Char → RegExp
  | [] => empty
  | [c] => chr c
  | c :: cs => seq (chr c) (lit cs)

/-- Backtracking matcher in continuation passing style: matchK r s k tries
to match r at the front of the remaining input s and hands what is left to
k. Alternatives are tried left to right, the optional quantifier is
greedy. Without the multiline flag the end assertion holds only when
nothing is left of the input. -/
def matchK : RegExp → List Char → (List Char → Bool) → Bool
  | chr c, s, k =>
    match s with
    | [] => false
    | x :: xs => x == c && k xs
  | empty, s, k => k s
  | seq a b, s, k => matchK a s (fun r => matchK b r k)
  | alt a b, s, k => matchK a s k || matchK b s k
  | opt a, s, k => matchK a s k || k s
  | eoi, s, k => s.isEmpty && k s

/-- The search of RegExp.prototype.test on a character list: a match is
attempted at every start position, from the left. -/
def testChars (r : RegExp) (s : List Char) : Bool :=
  s.tails.any (fun t => matchK r t (fun _ => true))

/-- RegExp.prototype.test on a string. -/
def test (r : RegExp) (s : String) : Bool :=
  testChars r s.data

/-- Declarative reading of a pattern: derives r s rest holds when r can
consume a front part of s and leave rest. -/
def derives : RegExp → List Char → List Char → Prop
  | chr c, s, rest => s = c :: rest
  | empty, s, rest => rest = s
  | seq a b, s, rest => ∃ m, derives a s m ∧ derives b m rest
  | alt a b, s, rest => derives a s rest ∨ derives b s rest
  | opt a, s, rest => derives a s rest ∨ rest = s
  | eoi, s, rest => s = [] ∧ rest = []

end RegExp

/-- String.prototype.endsWith as a proposition on the characters. -/
def endsWith (s suffix : String) : Prop :=
  suffix.data <:+ s.data

instance (s suffix : String) : Decidable (endsWith s suffix) := by
  unfold endsWith
  infer_instance

/-! ## The path module (POSIX)

The configuration calls path.resolve and path.join, and the bundler joins
the outputPath of a generator to the file name with path.posix.join. The
functions below follow the POSIX implementation of the runtime library:
normalizeString with its for loop over the indexes 0 to path.length, and
normalize, join and resolve on top of it. -/

namespace posix

/-- CHAR_FORWARD_SLASH test of the library. -/
def isPosixPathSeparator (code : Char) : Bool :=
  code == '/'

/-- String.prototype.slice for indexes that are not negative. -/
def slice (s : List Char) (start stop : Nat) : List Char :=
  (s.take stop).drop start

/-- Left to right scan behind lastIndexOf: i is the index of the head of
the list, found the last index seen so far. -/
def lastIndexOfFrom : List Char → Char → Int → Int → Int
  | [], _, _, found => found
  | x :: xs, c, i, found => lastIndexOfFrom xs c (i + 1) (if x = c then i else found)

/-- String.prototype.lastIndexOf for a single character, -1 when absent. -/
def lastIndexOf (s : List Char) (c : Char) : Int :=
  lastIndexOfFrom s c 0 (-1)

/-- The local variables of normalizeString. -/
structure NormalizeState where
  res : List Char
  lastSegmentLength : Int
  lastSlash : Int
  dots : Int
  code : Char
  deriving DecidableEq, Repr

/-- The values of the local variables before the loop. -/
def NormalizeState.init : NormalizeState :=
  { res := [], lastSegmentLength := 0, lastSlash := -1, dots := 0, code := Char.ofNat 0 }

/-- The part of the loop body that handles a segment equal to two dots,
when the loop does not leave the iteration early: with allowAboveRoot the
two dots are kept in the result. -/
def aboveRoot (allowAboveRoot : Bool) (st : NormalizeState) (i : Nat) (code : Char) :
    NormalizeState :=
  if allowAboveRoot then
    { res := st.res ++ (if st.res.length > 0 then "/..".data else "..".data)
      lastSegmentLength := 2
      lastSlash := i
      dots := 0
      code := code }
  else
    { st with lastSlash := i, dots := 0, code := code }

/-- One iteration of the loop of normalizeString, at index i with the
character code already chosen (the character at i, or a slash at the
index path.length). -/
def normalizeStep (path : List Char) (allowAboveRoot : Bool) (st : NormalizeState)
    (i : Nat) (code : Char) : NormalizeState :=
  if isPosixPathSeparator code then
    if st.lastSlash = (i : Int) - 1 ∨ st.dots = 1 then
      { st with lastSlash := i, dots := 0, code := code }
    else if st.dots = 2 then
      if st.res.length < 2 ∨ st.lastSegmentLength ≠ 2 ∨
          st.res[st.res.length - 1]? ≠ some '.' ∨
          st.res[st.res.length - 2]? ≠ some '.' then
        if st.res.length > 2 then
          let lastSlashIndex := lastIndexOf st.res '/'
          if lastSlashIndex = -1 then
            { res := [], lastSegmentLength := 0, lastSlash := i, dots := 0, code := code }
          else
            let res := slice st.res 0 lastSlashIndex.toNat
            { res := res
              lastSegmentLength := (res.length : Int) - 1 - lastIndexOf res '/'
              lastSlash := i
              dots := 0
              code := code }
        else if st.res.length ≠ 0 then
          { res := [], lastSegmentLength := 0, lastSlash := i, dots := 0, code := code }
        else
          aboveRoot allowAboveRoot st i code
      else
        aboveRoot allowAboveRoot st i code
    else
      { res :=
          if st.res.length > 0 then
            st.res ++ '/' :: slice path (st.lastSlash + 1).toNat i
          else
            slice path (st.lastSlash + 1).toNat i
        lastSegmentLength := (i : Int) - st.lastSlash - 1
        lastSlash := i
        dots := 0
        code := code }
  else if code = '.' ∧ st.dots ≠ -1 then
    { st with dots := st.dots + 1, code := code }
  else
    { st with dots := -1, code := code }

/-- The iterations of the loop at the indexes below path.length. -/
def normalizeLoop (path : List Char) (allowAboveRoot : Bool) : NormalizeState :=
  path.enum.foldl (fun st p => normalizeStep path allowAboveRoot st p.1 p.2)
    NormalizeState.init

/-- The function normalizeString: resolves the dot and double dot segments
and drops empty ones. At the index path.length the loop stops when the last
character was a slash and otherwise runs once more as if a slash followed. -/
def normalizeString (path : List Char) (allowAboveRoot : Bool) : List Char :=
  let st := normalizeLoop path allowAboveRoot
  if isPosixPathSeparator st.code then
    st.res
  else
    (normalizeStep path allowAboveRoot st path.length '/').res

/-- The function path.posix.normalize. -/
def normalize (path : List Char) : List Char :=
  if path.length = 0 then
    ".".data
  else
    let isAbsolute := path.head? = some '/'
    let trailingSeparator := path.getLast? = some '/'
    let path := normalizeString path (!decide isAbsolute)
    if path.length = 0 then
      if isAbsolute then "/".data
      else if trailingSeparator then "./".data else ".".data
    else
      let path := if trailingSeparator then path ++ ['/'] else path
      if isAbsolute then '/' :: path else path

/-- The loop of path.posix.join: the arguments that are not empty, joined
by a slash; none while no such argument was seen. -/
def joinArgs : List (List Char) → Option (List Char) → Option (List Char)
  | [], joined => joined
  | arg :: args, joined =>
    if arg.length > 0 then
      match joined with
      | none => joinArgs args (some arg)
      | some j => joinArgs args (some (j ++ '/' :: arg))
    else
      joinArgs args joined

/-- The function path.posix.join. -/
def join (args : List (List Char)) : List Char :=
  match joinArgs args none with
  | none => ".".data
  | some joined => normalize joined

/-- The loop of path.posix.resolve over the arguments from right to left,
the working directory last; it stops once an absolute path was seen. -/
def resolveArgs : List (List Char) → List Char × Bool → List Char × Bool
  | [], acc => acc
  | path :: paths, (resolvedPath, resolvedAbsolute) =>
    if resolvedAbsolute then
      (resolvedPath, resolvedAbsolute)
    else if path.length = 0 then
      resolveArgs paths (resolvedPath, resolvedAbsolute)
    else
      resolveArgs paths (path ++ '/' :: resolvedPath, decide (path.head? = some '/'))

/-- The function path.posix.resolve, with the working directory of the
process as a parameter. -/
def resolve (cwd : List Char) (args : List (List Char)) : List Char :=
  let r := resolveArgs (args.reverse ++ [cwd]) ([], false)
  let resolvedPath := normalizeString r.1 (!r.2)
  if r.2 then
    '/' :: resolvedPath
  else if resolvedPath.length > 0 then resolvedPath else ".".data

end posix

namespace path

/-- The call path.join(...args) on strings. -/
def join (args : List String) : String :=
  String.mk (posix.join (args.map String.data))

/-- The call path.resolve(...args) on strings, in a process whose working
directory is cwd. -/
def resolve (cwd : String) (args : List String) : String :=
  String.mk (posix.resolve cwd.data (args.map String.data))

/-- An absolute POSIX path starts with a slash. -/
def isAbsolute (p : String) : Prop :=
  p.data.head? = some '/'

instance (p : String) : Decidable (isAbsolute p) := by
  unfold isAbsolute
  infer_instance

end path

/-! ## The configuration object -/

/-- The generator object of an asset rule. -/
structure Generator where
  filename : String
  publicPath : String
  outputPath : String
  deriving DecidableEq, Repr

/-- One entry of module.rules. A key the source leaves out is none. -/
structure Rule where
  test : RegExp
  use : Option (List String)
  type : Option String
  generator : Option Generator
  deriving DecidableEq, Repr

/-- The options object handed to the HtmlWebpackPlugin constructor. -/
structure HtmlWebpackPluginOptions where
  title : String
  template : String
  inject : String
  deriving DecidableEq, Repr

/-- A plugin instance, by constructor and constructor arguments. -/
inductive Plugin where
  | ESLintPlugin
  | CleanWebpackPlugin
  | HtmlWebpackPlugin (options : HtmlWebpackPluginOptions)
  deriving DecidableEq, Repr

/-- The regular expression literal /\.css$/. -/
def cssTest : RegExp :=
  .seq (.chr '.') (.seq (RegExp.lit "css".data) .eoi)

/-- The regular expression literal /\.(gif|png|avif|jpe?g)$/. -/
def imageTest : RegExp :=
  .seq (.chr '.')
    (.seq
      (.alt (RegExp.lit "gif".data)
        (.alt (RegExp.lit "png".data)
          (.alt (RegExp.lit "avif".data)
            (.seq (.chr 'j') (.seq (.chr 'p') (.seq (.opt (.chr 'e')) (.chr 'g')))))))
      .eoi)

/-- The regular expression literal /\.html$/. -/
def htmlTest : RegExp :=
  .seq (.chr '.') (.seq (RegExp.lit "html".data) .eoi)

/-- The generator of the image rule. -/
def imageGenerator : Generator :=
  { filename := "[name][ext]"
    publicPath := "assets/images/"
    outputPath := "assets/images/" }

/-- First entry of module.rules. -/
def cssRule : Rule :=
  { test := cssTest
    use := some ["style-loader", "css-loader"]
    type := none
    generator := none }

/-- Second entry of module.rules. -/
def imageRule : Rule :=
  { test := imageTest
    use := none
    type := some "asset/resource"
    generator := some imageGenerator }

/-- Third entry of module.rules. -/
def htmlRule : Rule :=
  { test := htmlTest
    use := some ["html-loader"]
    type := none
    generator := none }

/-- The value of module.exports.module.rules. -/
def rules : List Rule :=
  [cssRule, imageRule, htmlRule]

/-- The value of module.exports.plugins. -/
def plugins : List Plugin :=
  [ .ESLintPlugin,
    .CleanWebpackPlugin,
    .HtmlWebpackPlugin
      { title := "Project"
        template := "./src/index.html"
        inject := "body" } ]

/-- The output object. -/
structure Output where
  filename : String
  path : String
  deriving DecidableEq, Repr

/-- The static object of the development server. -/
structure Static where
  directory : String
  deriving DecidableEq, Repr

/-- The devServer object. -/
structure DevServer where
  static : Static
  deriving DecidableEq, Repr

/-- The module object. -/
structure Module where
  rules : List Rule
  deriving DecidableEq, Repr

/-- The shape of the exported configuration object. -/
structure Configuration where
  entry : String
  output : Output
  devServer : DevServer
  devtool : String
  plugins : List Plugin
  module : Module
  deriving DecidableEq, Repr

/-- The object assigned to module.exports, as a function of the two values
the file reads from its environment: the working directory of the process
(used by path.resolve for a relative result) and __dirname. -/
def moduleExports (cwd __dirname : String) : Configuration :=
  { entry := "./src/index.js"
    output :=
      { filename := "bundle.js"
        path := path.resolve cwd [__dirname, "dist"] }
    devServer :=
      { static :=
          { directory := path.join [__dirname, "dist"] } }
    devtool := "eval-source-map"
    plugins := plugins
    module := { rules := rules } }

/-! ## Asset file names

An asset rule emits its file under the name the bundler computes from the
generator: the filename template with its placeholders replaced, joined to
the outputPath with path.posix.join. -/

/-- Characters a placeholder name may consist of. -/
def isWordChar (c : Char) : Bool :=
  c.isAlphanum || c == '_'

/-- What the template engine derives from the resource of an asset: the
directory part (up to and including the last slash), the base name without
the extension, and the extension with its leading dot. -/
structure PathData where
  path : String
  name : String
  ext : String
  deriving DecidableEq, Repr

/-- The resource file the three parts were cut from. -/
def PathData.file (d : PathData) : String :=
  d.path ++ d.name ++ d.ext

/-- The text a placeholder stands for. Only the two placeholders of this
configuration are covered; any other bracketed word has no replacement
here. -/
def placeholder (d : PathData) (key : List Char) : Option (List Char) :=
  if key = "name".data then some d.name.data
  else if key = "ext".data then some d.ext.data
  else none

/-- Left to right replacement of the placeholders of a template. The
second argument is none outside brackets, and inside brackets the word read
since the opening bracket. A bracketed word without a replacement, and a
bracket that is not closed after a word, stay as they are. -/
def replaceFrom (d : PathData) : List Char → Option (List Char) → List Char
  | [], none => []
  | [], some key => '[' :: key
  | c :: cs, none =>
    if c = '[' then replaceFrom d cs (some [])
    else c :: replaceFrom d cs none
  | c :: cs, some key =>
    if c = ']' ∧ key ≠ [] then
      (placeholder d key).getD ('[' :: key ++ [']']) ++ replaceFrom d cs none
    else if isWordChar c then replaceFrom d cs (some (key ++ [c]))
    else if c = '[' then '[' :: key ++ replaceFrom d cs (some [])
    else '[' :: key ++ c :: replaceFrom d cs none

/-- The template engine on a whole template. -/
def replacePathVariables (template : String) (d : PathData) : List Char :=
  replaceFrom d template.data none

/-- The name under which an asset module is written below the output
directory: the interpolated filename, joined to the interpolated
outputPath of the generator. -/
def assetFilename (g : Generator) (d : PathData) : String :=
  String.mk
    (posix.join [replacePathVariables g.outputPath d, replacePathVariables g.filename d])

/-- An image asset: its resource has no slash after the directory part and
is accepted by the matcher of the image rule. -/
def isImageAsset (d : PathData) : Prop :=
  '/' ∉ (d.name ++ d.ext).data ∧ imageTest.test d.file = true

instance (d : PathData) : Decidable (isImageAsset d) := by
  unfold isImageAsset
  infer_instance

/-- The template option of a plugin instance, for the one plugin that is
constructed with one. -/
def Plugin.template? : Plugin → Option String
  | .HtmlWebpackPlugin options => some options.template
  | _ => none

/-- The rules of a rule list whose matcher accepts the file. -/
def matchingRules (rs : List Rule) (file : String) : List Rule :=
  rs.filter (fun r => r.test.test file)

/-! ## The loader runner

The configuration only lists loaders; which of their functions the bundler
calls, and in which order, is decided by the loader runner of the bundler
and by what the loader packages export. Neither is code of the repository.
The definitions below follow the loader runner (iteratePitchingLoaders,
then iterateNormalLoaders) and record, for the loaders the configuration
names, whether the package exports a pitch function and what it gives. -/

/-- What a pitch function gives back: nothing, in which case the pitching
phase goes on with the next loader, or a module source that imports the
remaining request (the loaders behind this one and the resource) with the
configured rules switched off, in which case the loaders behind this one
are skipped for this module. -/
inductive PitchResult where
  | undefined
  | importsRemainingRequest
  deriving DecidableEq, Repr

/-- The pitch function of a loader package, for the loaders the
configuration names: style-loader exports one, and it returns a module
that imports the remaining request; css-loader and html-loader export a
normal function only. -/
def loaderPitch (loader : String) : Option PitchResult :=
  if loader = "style-loader" then some .importsRemainingRequest else none

/-- A call of a loader function by the loader runner. -/
inductive LoaderCall where
  | pitch (loader : String)
  | normal (loader : String)
  deriving DecidableEq, Repr

/-- The loader a call belongs to. -/
def LoaderCall.loader : LoaderCall → String
  | .pitch l => l
  | .normal l => l

/-- The normal phase from the current loaderIndex down to 0: the normal
functions of the loaders in front of the current one, the nearest first. -/
def iterateNormalLoaders (previous : List String) : List LoaderCall :=
  previous.map LoaderCall.normal

/-- The loader calls made for a file with the given chain. The first
argument holds the loaders from loaderIndex on, the second those in front
of it, the nearest first. The pitching phase goes through the chain from
the first loader to the last; without a pitch result the resource is read
and the normal phase runs from the last loader to the first. A pitch that
returns a module ends the pitching phase: the normal functions of the
loaders in front of it run on what it returned, and the module it
returned imports the remaining request, which is then built with the
remaining loaders alone. -/
def iteratePitchingLoaders : List String → List String → List LoaderCall
  | [], previous => iterateNormalLoaders previous
  | l :: remaining, previous =>
    match loaderPitch l with
    | none => iteratePitchingLoaders remaining (l :: previous)
    | some .undefined => .pitch l :: iteratePitchingLoaders remaining (l :: previous)
    | some .importsRemainingRequest =>
      .pitch l :: (iterateNormalLoaders previous ++ iteratePitchingLoaders remaining [])

/-- The loader calls the bundler makes for a file whose rule has the given
use array, in the order they are made. -/
def runLoaders (use : List String) : List LoaderCall :=
  iteratePitchingLoaders use []

/-- Whether, in a sequence of loader calls, a call of the loader b comes
after the first call of the loader a. -/
def calledBefore (a b : String) (calls : List LoaderCall) : Bool :=
  decide (b ∈ (((calls.map LoaderCall.loader).dropWhile (fun x => x != a)).drop 1))

/-- Modelled from the spec: the lookup of the Transform Registry, which the
repository does not contain. It returns the first registered entry, in
registration order, whose pattern matches the file, and none (the
no transform sentinel) when no pattern matches. An entry is a rule of the
configuration: its test is the pattern, the rest of it the chain. -/
def lookup (registry : List Rule) (file : String) : Option Rule :=
  registry.find? (fun r => r.test.test file)

/-! ## The build orchestrator of the specification

The repository configures a bundler and contains no scheduler of its own.
The specification describes the orchestrator such a configuration is
written for; its build graph and its scheduler are modelled here from that
description, next to the configuration they would be driven by. -/

namespace Orchestrator

/-- Modelled from the spec: an AssetNode of the data model, which the
repository does not contain. Its identity is the resolved absolute path,
and it carries the ordered list of the identities it depends on. -/
structure AssetNode where
  id : String
  references : List String
  deriving DecidableEq, Repr

/-- Modelled from the spec: the BuildGraph of the data model, which the
repository does not contain: the asset nodes, in discovery order, and the
identity of the entry. -/
structure BuildGraph where
  nodes : List AssetNode
  entry : String
  deriving DecidableEq, Repr

/-- The identities of the nodes of a graph. -/
def BuildGraph.ids (g : BuildGraph) : List String :=
  g.nodes.map AssetNode.id

/-- The dependency edges of a graph: a node with identity a refers to b. -/
def BuildGraph.dependsOn (g : BuildGraph) (a b : String) : Prop :=
  ∃ n ∈ g.nodes, n.id = a ∧ b ∈ n.references

/-- Modelled from the spec: the invariant of the BuildGraph that every
reference target resolves to exactly one AssetNode. -/
def BuildGraph.Resolved (g : BuildGraph) : Prop :=
  g.ids.Nodup ∧ ∀ n ∈ g.nodes, ∀ r ∈ n.references, r ∈ g.ids

/-- Modelled from the spec: the invariant of the BuildGraph that it is
acyclic: no node reaches itself along dependency edges. -/
def BuildGraph.Acyclic (g : BuildGraph) : Prop :=
  ∀ a, ¬ Relation.TransGen g.dependsOn a a

/-- Modelled from the spec: the ways the visit of a node ends under the
failure policy and the cache of the scheduler, which the repository does
not contain: its chain ran and succeeded, its output
was taken from the cache without running the chain, its chain ran and
failed, or it was skipped because a dependency did not succeed. -/
inductive Outcome where
  | transformed
  | cacheHit
  | failed
  | skipped
  deriving DecidableEq, Repr

/-- The outcomes after which dependents may run. -/
def Outcome.succeeded : Outcome → Bool
  | .transformed => true
  | .cacheHit => true
  | .failed => false
  | .skipped => false

/-- Modelled from the spec: what happens during a build generation of the
scheduler, which the repository does not contain, in the order it happens: the
chain of a node starts to execute on a worker, and the visit of a node
completes with an outcome. -/
inductive Event where
  | started (id : String)
  | finished (id : String) (outcome : Outcome)
  deriving DecidableEq, Repr

/-- The identity of the node whose visit an event completes. -/
def Event.finishedId? : Event → Option String
  | .finished id _ => some id
  | .started _ => none

/-- The identity of the node whose chain an event starts. -/
def Event.startedId? : Event → Option String
  | .started id => some id
  | .finished _ _ => none

/-- The identities whose visit is complete, in order of completion. -/
def completed (log : List Event) : List String :=
  log.filterMap Event.finishedId?

/-- The identities whose chain was started, in order of start. -/
def executed (log : List Event) : List String :=
  log.filterMap Event.startedId?

/-- Whether the visit of a node is complete with an outcome that lets its
dependents run. -/
def hasSucceeded (log : List Event) (id : String) : Bool :=
  decide (Event.finished id .transformed ∈ log ∨ Event.finished id .cacheHit ∈ log)

/-- Modelled from the spec: the ready test of the task queue, which the
repository does not contain. A node is ready when the visits of all its
dependencies are complete. -/
def isReady (log : List Event) (n : AssetNode) : Bool :=
  n.references.all (fun r => decide (r ∈ completed log))

/-- Modelled from the spec: the failure policy and the cache rule of the
scheduler, which the repository does not contain. The chain of a ready
node is executed when all its dependencies
succeeded and the cache has no entry for it. -/
def executes (cache : String → Bool) (log : List Event) (n : AssetNode) : Bool :=
  n.references.all (hasSucceeded log) && !cache n.id

/-- The start event of a ready node, if its chain is executed. -/
def startEvent (cache : String → Bool) (log : List Event) (n : AssetNode) : Option Event :=
  if executes cache log n then some (.started n.id) else none

/-- Modelled from the spec: the failure policy and the cache rule of the
scheduler, which the repository does not contain. The outcome of a ready
node is skipped when a dependency did not
succeed, a cache hit when the cache has an entry, and otherwise the result
of its chain. -/
def outcomeOf (fails cache : String → Bool) (log : List Event) (n : AssetNode) : Outcome :=
  if n.references.all (hasSucceeded log) then
    if cache n.id then .cacheHit
    else if fails n.id then .failed
    else .transformed
  else .skipped

/-- The nodes not yet visited and the events so far. -/
structure SchedulerState where
  pending : List AssetNode
  log : List Event
  deriving DecidableEq, Repr

/-- Modelled from the spec: the worker pool of the scheduler, which the
repository does not contain. The ready nodes the pool takes from the queue
in one round are the
first ones in discovery order, as many as there are workers. -/
def batch (workers : Nat) (st : SchedulerState) : List AssetNode :=
  (st.pending.filter (isReady st.log)).take workers

/-- Modelled from the spec: one round of the worker pool of the scheduler,
which the repository does not contain: the nodes of the batch that execute
start together, then the visits of all nodes of the batch complete. -/
def round (workers : Nat) (fails cache : String → Bool) (st : SchedulerState) :
    SchedulerState :=
  { pending := st.pending.filter (fun n => decide (n.id ∉ (batch workers st).map AssetNode.id))
    log := st.log ++ (batch workers st).filterMap (startEvent cache st.log) ++
      (batch workers st).map (fun n => Event.finished n.id (outcomeOf fails cache st.log n)) }

/-- Modelled from the spec: the draining of the task queue of the
scheduler, which the repository does not contain: rounds of the worker pool
until no node is pending, at most k of them. -/
def rounds (workers : Nat) (fails cache : String → Bool) : Nat → SchedulerState → SchedulerState
  | 0, st => st
  | k + 1, st =>
    if st.pending.isEmpty then st
    else rounds workers fails cache k (round workers fails cache st)

/-- Modelled from the spec: run of the Build Scheduler, which the
repository does not contain. A node becomes ready when all its
dependencies are complete; a pool of workers drains the ready nodes; a
node whose dependency failed or was skipped is skipped; a node with a
cache entry is not executed. The transforms and the cache are parameters:
fails tells whether the chain of a node fails, cache whether the cache has
an entry for it. The result is the event log of the generation; one round
per node is enough for every graph. -/
def run (workers : Nat) (fails cache : String → Bool) (g : BuildGraph) : List Event :=
  (rounds workers fails cache g.nodes.length { pending := g.nodes, log := [] }).log

/-- A build graph of three assets: a script that refers to a stylesheet and
an image, the stylesheet referring to the image as well. -/
def exampleGraph : BuildGraph :=
  { nodes :=
      [ { id := "/app/src/index.js", references := ["/app/src/style.css", "/app/src/logo.png"] },
        { id := "/app/src/style.css", references := ["/app/src/logo.png"] },
        { id := "/app/src/logo.png", references := [] } ]
    entry := "/app/src/index.js" }

/-- The invariant of the scheduler during a generation on the graph g: the
pending nodes are nodes of the graph, every node is either pending or
complete and never both, no visit completes twice, no chain starts twice or
without its visit completing, and a chain starts only after the visits of
all dependencies of its node have completed with success. -/
structure Inv (g : BuildGraph) (st : SchedulerState) : Prop where
  pending_sub : st.pending.Sublist g.nodes
  completed_nodup : (completed st.log).Nodup
  completed_sound : ∀ id ∈ completed st.log,
    id ∈ g.ids ∧ id ∉ st.pending.map AssetNode.id
  complete : ∀ id ∈ g.ids, id ∈ completed st.log ∨ id ∈ st.pending.map AssetNode.id
  executed_nodup : (executed st.log).Nodup
  executed_sub : ∀ id ∈ executed st.log, id ∈ completed st.log
  ordered : ∀ (i : Nat) (n : AssetNode), n ∈ g.nodes →
    st.log[i]? = some (Event.started n.id) →
    ∀ r ∈ n.references, ∃ j, j < i ∧ ∃ o : Outcome, o.succeeded = true ∧
      st.log[j]? = some (Event.finished r o)

end Orchestrator

/-! ## The matcher against the declarative reading -/

theorem matchK_iff (r : RegExp) : ∀ (s : List Char) (k : List Char → Bool),
    RegExp.matchK r s k = true ↔ ∃ rest, RegExp.derives r s rest ∧ k rest = true := by
  induction r with
  | chr c =>
    intro s k
    cases s with
    | nil => simp [RegExp.matchK, RegExp.derives]
    | cons x xs =>
      simp only [RegExp.matchK, RegExp.derives, Bool.and_eq_true, beq_iff_eq, List.cons.injEq]
      constructor
      · rintro ⟨rfl, h⟩
        exact ⟨xs, ⟨rfl, rfl⟩, h⟩
      · rintro ⟨rest, ⟨rfl, rfl⟩, h⟩
        exact ⟨rfl, h⟩
  | empty =>
    intro s k
    simp [RegExp.matchK, RegExp.derives]
  | seq a b iha ihb =>
    intro s k
    simp only [RegExp.matchK, RegExp.derives, iha, ihb]
    constructor
    · rintro ⟨m, hm, rest, hr, hk⟩
      exact ⟨rest, ⟨m, hm, hr⟩, hk⟩
    · rintro ⟨rest, ⟨m, hm, hr⟩, hk⟩
      exact ⟨m, hm, rest, hr, hk⟩
  | alt a b iha ihb =>
    intro s k
    simp only [RegExp.matchK, RegExp.derives, Bool.or_eq_true, iha, ihb]
    constructor
    · rintro (⟨rest, h, hk⟩ | ⟨rest, h, hk⟩)
      · exact ⟨rest, Or.inl h, hk⟩
      · exact ⟨rest, Or.inr h, hk⟩
    · rintro ⟨rest, h | h, hk⟩
      · exact Or.inl ⟨rest, h, hk⟩
      · exact Or.inr ⟨rest, h, hk⟩
  | opt a iha =>
    intro s k
    simp only [RegExp.matchK, RegExp.derives, Bool.or_eq_true, iha]
    constructor
    · rintro (⟨rest, h, hk⟩ | hk)
      · exact ⟨rest, Or.inl h, hk⟩
      · exact ⟨s, Or.inr rfl, hk⟩
    · rintro ⟨rest, h | rfl, hk⟩
      · exact Or.inl ⟨rest, h, hk⟩
      · exact Or.inr hk
  | eoi =>
    intro s k
    cases s <;> simp [RegExp.matchK, RegExp.derives]

theorem testChars_iff (r : RegExp) (s : List Char) :
    RegExp.testChars r s = true ↔ ∃ t, t <:+ s ∧ ∃ rest, RegExp.derives r t rest := by
  simp [RegExp.testChars, List.any_eq_true, List.mem_tails, matchK_iff]

theorem derives_cssTest (t rest : List Char) :
    RegExp.derives cssTest t rest ↔ t = ".css".data ∧ rest = [] := by
  simp only [cssTest, RegExp.lit, RegExp.derives]
  constructor
  · rintro ⟨m, rfl, m2, ⟨m3, rfl, m4, rfl, rfl⟩, rfl, rfl⟩
    exact ⟨rfl, rfl⟩
  · rintro ⟨rfl, rfl⟩
    exact ⟨_, rfl, _, ⟨_, rfl, _, rfl, rfl⟩, rfl, rfl⟩

theorem derives_htmlTest (t rest : List Char) :
    RegExp.derives htmlTest t rest ↔ t = ".html".data ∧ rest = [] := by
  simp only [htmlTest, RegExp.lit, RegExp.derives]
  constructor
  · rintro ⟨m, rfl, m2, ⟨m3, rfl, m4, rfl, m5, rfl, rfl⟩, rfl, rfl⟩
    exact ⟨rfl, rfl⟩
  · rintro ⟨rfl, rfl⟩
    exact ⟨_, rfl, _, ⟨_, rfl, _, rfl, _, rfl, rfl⟩, rfl, rfl⟩

theorem derives_imageTest (t rest : List Char) :
    RegExp.derives imageTest t rest ↔
      (t = ".gif".data ∨ t = ".png".data ∨ t = ".avif".data ∨ t = ".jpg".data ∨
        t = ".jpeg".data) ∧ rest = [] := by
  simp only [imageTest, RegExp.lit, RegExp.derives]
  constructor
  · rintro ⟨m, rfl, m2, h, rfl, rfl⟩
    refine ⟨?_, rfl⟩
    rcases h with ⟨m3, rfl, m4, rfl, rfl⟩ | ⟨m3, rfl, m4, rfl, rfl⟩ |
      ⟨m3, rfl, m4, rfl, m5, rfl, rfl⟩ | ⟨m3, rfl, m4, rfl, m5, h, rfl⟩
    · exact Or.inl rfl
    · exact Or.inr (Or.inl rfl)
    · exact Or.inr (Or.inr (Or.inl rfl))
    · rcases h with rfl | rfl
      · exact Or.inr (Or.inr (Or.inr (Or.inr rfl)))
      · exact Or.inr (Or.inr (Or.inr (Or.inl rfl)))
  · rintro ⟨h, rfl⟩
    rcases h with rfl | rfl | rfl | rfl | rfl
    · exact ⟨_, rfl, _, Or.inl ⟨_, rfl, _, rfl, rfl⟩, rfl, rfl⟩
    · exact ⟨_, rfl, _, Or.inr (Or.inl ⟨_, rfl, _, rfl, rfl⟩), rfl, rfl⟩
    · exact ⟨_, rfl, _, Or.inr (Or.inr (Or.inl ⟨_, rfl, _, rfl, _, rfl, rfl⟩)), rfl, rfl⟩
    · exact ⟨_, rfl, _, Or.inr (Or.inr (Or.inr ⟨_, rfl, _, rfl, _, Or.inr rfl, rfl⟩)), rfl, rfl⟩
    · exact ⟨_, rfl, _, Or.inr (Or.inr (Or.inr ⟨_, rfl, _, rfl, _, Or.inl rfl, rfl⟩)), rfl, rfl⟩

theorem cssTest_iff (s : String) : cssTest.test s = true ↔ endsWith s ".css" := by
  simp only [RegExp.test, testChars_iff, derives_cssTest, endsWith]
  constructor
  · rintro ⟨t, ht, rest, rfl, -⟩
    exact ht
  · intro h
    exact ⟨_, h, [], rfl, rfl⟩

theorem htmlTest_iff (s : String) : htmlTest.test s = true ↔ endsWith s ".html" := by
  simp only [RegExp.test, testChars_iff, derives_htmlTest, endsWith]
  constructor
  · rintro ⟨t, ht, rest, rfl, -⟩
    exact ht
  · intro h
    exact ⟨_, h, [], rfl, rfl⟩

theorem imageTest_iff (s : String) :
    imageTest.test s = true ↔
      (endsWith s ".gif" ∨ endsWith s ".png" ∨ endsWith s ".avif" ∨ endsWith s ".jpg" ∨
        endsWith s ".jpeg") := by
  simp only [RegExp.test, testChars_iff, derives_imageTest, endsWith]
  constructor
  · rintro ⟨t, ht, rest, h, -⟩
    rcases h with rfl | rfl | rfl | rfl | rfl
    · exact Or.inl ht
    · exact Or.inr (Or.inl ht)
    · exact Or.inr (Or.inr (Or.inl ht))
    · exact Or.inr (Or.inr (Or.inr (Or.inl ht)))
    · exact Or.inr (Or.inr (Or.inr (Or.inr ht)))
  · rintro (h | h | h | h | h)
    · exact ⟨_, h, [], Or.inl rfl, rfl⟩
    · exact ⟨_, h, [], Or.inr (Or.inl rfl), rfl⟩
    · exact ⟨_, h, [], Or.inr (Or.inr (Or.inl rfl)), rfl⟩
    · exact ⟨_, h, [], Or.inr (Or.inr (Or.inr (Or.inl rfl))), rfl⟩
    · exact ⟨_, h, [], Or.inr (Or.inr (Or.inr (Or.inr rfl))), rfl⟩

/-- Two words of which neither is a suffix of the other cannot both end a
string. -/
theorem suffix_clash {a b s : List Char} (ha : a <:+ s) (hb : b <:+ s)
    (hab : ¬ a <:+ b) (hba : ¬ b <:+ a) : False := by
  rcases List.suffix_or_suffix_of_suffix ha hb with h | h
  · exact hab h
  · exact hba h

theorem not_css_and_image (file : String) :
    ¬ (cssTest.test file = true ∧ imageTest.test file = true) := by
  rw [cssTest_iff, imageTest_iff]
  simp only [endsWith]
  rintro ⟨hc, hi | hi | hi | hi | hi⟩ <;>
    exact suffix_clash hc hi (by decide) (by decide)

theorem not_css_and_html (file : String) :
    ¬ (cssTest.test file = true ∧ htmlTest.test file = true) := by
  rw [cssTest_iff, htmlTest_iff]
  simp only [endsWith]
  rintro ⟨hc, hi⟩
  exact suffix_clash hc hi (by decide) (by decide)

theorem not_image_and_html (file : String) :
    ¬ (imageTest.test file = true ∧ htmlTest.test file = true) := by
  rw [htmlTest_iff, imageTest_iff]
  simp only [endsWith]
  rintro ⟨hi | hi | hi | hi | hi, hc⟩ <;>
    exact suffix_clash hc hi (by decide) (by decide)

theorem matchingRules_length_le_one (file : String) :
    (matchingRules rules file).length ≤ 1 := by
  have h1 := not_css_and_image file
  have h2 := not_css_and_html file
  have h3 := not_image_and_html file
  simp only [matchingRules, rules, List.filter, cssRule, imageRule, htmlRule]
  cases hc : cssTest.test file <;> cases hi : imageTest.test file <;>
    cases hh : htmlTest.test file <;> simp_all

theorem find?_perm_of_unique {α : Type} {l l2 : List α} (p : α → Bool) (h : l.Perm l2)
    (huniq : ∀ a ∈ l, ∀ b ∈ l, p a = true → p b = true → a = b) :
    l2.find? p = l.find? p := by
  cases hf : l.find? p with
  | none =>
    rw [List.find?_eq_none] at hf ⊢
    intro x hx
    exact hf x (h.mem_iff.mpr hx)
  | some a =>
    have hpa : p a = true := List.find?_some hf
    have hma : a ∈ l := List.mem_of_find?_eq_some hf
    cases hf2 : l2.find? p with
    | none =>
      rw [List.find?_eq_none] at hf2
      exact absurd hpa (hf2 a (h.mem_iff.mp hma))
    | some b =>
      have hpb : p b = true := List.find?_some hf2
      have hmb : b ∈ l := h.mem_iff.mpr (List.mem_of_find?_eq_some hf2)
      rw [huniq a hma b hmb hpa hpb]

theorem rules_unique_match (file : String) :
    ∀ a ∈ rules, ∀ b ∈ rules, a.test.test file = true → b.test.test file = true → a = b := by
  have h1 := not_css_and_image file
  have h2 := not_css_and_html file
  have h3 := not_image_and_html file
  intro a ha b hb hpa hpb
  simp only [rules, List.mem_cons, List.mem_singleton, List.not_mem_nil, or_false] at ha hb
  rcases ha with rfl | rfl | rfl <;> rcases hb with rfl | rfl | rfl <;>
    first
    | rfl
    | (exfalso; simp only [cssRule, imageRule, htmlRule] at hpa hpb; simp_all)

/-! ## The claims about the rule and plugin lists -/

/-- C1: module.rules of the exported configuration has exactly three
rules, in the order stylesheet rule (matcher /\.css$/), image rule (matcher
/\.(gif|png|avif|jpe?g)$/), markup rule (matcher /\.html$/), and nothing
else. -/
theorem C1_rules_exactly_three (cwd dirname : String) :
    (moduleExports cwd dirname).module.rules.length = 3 ∧
      (moduleExports cwd dirname).module.rules = [cssRule, imageRule, htmlRule] ∧
      (moduleExports cwd dirname).module.rules.map Rule.test =
        [cssTest, imageTest, htmlTest] :=
  ⟨rfl, rfl, rfl⟩

/-- C2: plugins of the exported configuration has exactly three plugin
instances, in the order ESLintPlugin, CleanWebpackPlugin, HtmlWebpackPlugin
(constructed with title Project, template ./src/index.html, inject body),
and nothing else. -/
theorem C2_plugins_exactly_three (cwd dirname : String) :
    (moduleExports cwd dirname).plugins.length = 3 ∧
      (moduleExports cwd dirname).plugins =
        [ Plugin.ESLintPlugin,
          Plugin.CleanWebpackPlugin,
          Plugin.HtmlWebpackPlugin
            { title := "Project", template := "./src/index.html", inject := "body" } ] :=
  ⟨rfl, rfl⟩

/-- C3: for every file name at most one of the three rule matchers accepts
it, and the first-match lookup gives the same result on every permutation
of the rule list of the configuration as on the list itself. -/
theorem C3_lookup_order_irrelevant (cwd dirname file : String) (registry : List Rule)
    (h : registry.Perm (moduleExports cwd dirname).module.rules) :
    (matchingRules (moduleExports cwd dirname).module.rules file).length ≤ 1 ∧
      lookup registry file = lookup (moduleExports cwd dirname).module.rules file := by
  refine ⟨matchingRules_length_le_one file, ?_⟩
  exact find?_perm_of_unique _ h.symm (rules_unique_match file)

theorem C3_lookup_order_irrelevant_witness :
    [htmlRule, cssRule, imageRule].Perm (moduleExports "/" "/app").module.rules ∧
      (matchingRules (moduleExports "/" "/app").module.rules "logo.png").length ≤ 1 ∧
      lookup [htmlRule, cssRule, imageRule] "logo.png" =
        lookup (moduleExports "/" "/app").module.rules "logo.png" :=
  have hp : [htmlRule, cssRule, imageRule].Perm (moduleExports "/" "/app").module.rules :=
    (List.Perm.swap cssRule htmlRule [imageRule]).trans
      (List.Perm.cons cssRule (List.Perm.swap imageRule htmlRule []))
  ⟨hp, C3_lookup_order_irrelevant "/" "/app" "logo.png" _ hp⟩

/-- C4: the matcher of the image rule accepts a file name exactly when the
name ends with one of .gif, .png, .avif, .jpg, .jpeg (case sensitive); so
a.jpeg and a.jpg are accepted, and a.jpe, a.JPG, a.png.txt and apng are
not. -/
theorem C4_image_matcher_is_extension_set :
    (∀ s : String, imageRule.test.test s = true ↔
        (endsWith s ".gif" ∨ endsWith s ".png" ∨ endsWith s ".avif" ∨ endsWith s ".jpg" ∨
          endsWith s ".jpeg")) ∧
      imageRule.test.test "a.jpeg" = true ∧ imageRule.test.test "a.jpg" = true ∧
      imageRule.test.test "a.jpe" = false ∧ imageRule.test.test "a.JPG" = false ∧
      imageRule.test.test "a.png.txt" = false ∧ imageRule.test.test "apng" = false :=
  ⟨imageTest_iff, by decide, by decide, by decide, by decide, by decide, by decide⟩

/-- C8, as stated, fails: on the chain of the stylesheet rule the first
loader function the bundler calls is the pitch of style-loader, the normal
function of style-loader is never called, and no call of style-loader
comes after a call of css-loader. -/
theorem C8_css_loader_not_before_style_loader_counterexample :
    cssRule.use = some ["style-loader", "css-loader"] ∧
      (runLoaders ["style-loader", "css-loader"]).head? =
        some (LoaderCall.pitch "style-loader") ∧
      LoaderCall.normal "style-loader" ∉ runLoaders ["style-loader", "css-loader"] ∧
      calledBefore "css-loader" "style-loader"
        (runLoaders ["style-loader", "css-loader"]) = false := by
  decide

/-- C8, amended: the chain of the stylesheet rule is the list style-loader,
css-loader in this order (style-loader at index 0, css-loader at index 1);
on it the bundler calls the pitch of style-loader first and then the
normal function of css-loader, which alone runs on the source, and it
never calls the normal function of style-loader; the image rule has no
chain and the type asset/resource; the chain of the markup rule is the
list with html-loader alone, whose normal function is the one call. -/
theorem C8_chains_and_loader_calls (cwd dirname : String) :
    (moduleExports cwd dirname).module.rules.map Rule.use =
        [some ["style-loader", "css-loader"], none, some ["html-loader"]] ∧
      cssRule.use = some ["style-loader", "css-loader"] ∧
      ["style-loader", "css-loader"][0]? = some "style-loader" ∧
      ["style-loader", "css-loader"][1]? = some "css-loader" ∧
      cssRule.use.map runLoaders =
        some [LoaderCall.pitch "style-loader", LoaderCall.normal "css-loader"] ∧
      imageRule.use = none ∧ imageRule.type = some "asset/resource" ∧
      htmlRule.use = some ["html-loader"] ∧
      htmlRule.use.map runLoaders = some [LoaderCall.normal "html-loader"] := by
  refine ⟨rfl, rfl, rfl, rfl, ?_, rfl, rfl, rfl, ?_⟩
  · decide
  · decide

/-- C10: the template of the HtmlWebpackPlugin instance, ./src/index.html,
is accepted by the matcher of the markup rule and by no other, so the
html-loader chain applies to it; the entry ./src/index.js is accepted by
none of the three matchers, so no chain applies to it. -/
theorem C10_named_paths_classified (cwd dirname : String) :
    (moduleExports cwd dirname).plugins.filterMap Plugin.template? = ["./src/index.html"] ∧
      matchingRules (moduleExports cwd dirname).module.rules "./src/index.html" = [htmlRule] ∧
      (lookup (moduleExports cwd dirname).module.rules "./src/index.html").bind Rule.use =
        some ["html-loader"] ∧
      (moduleExports cwd dirname).entry = "./src/index.js" ∧
      matchingRules (moduleExports cwd dirname).module.rules (moduleExports cwd dirname).entry
        = [] ∧
      lookup (moduleExports cwd dirname).module.rules (moduleExports cwd dirname).entry
        = none := by
  refine ⟨rfl, ?_, ?_, rfl, ?_, ?_⟩
  · show matchingRules rules "./src/index.html" = [htmlRule]
    decide
  · show (lookup rules "./src/index.html").bind Rule.use = some ["html-loader"]
    decide
  · show matchingRules rules "./src/index.js" = []
    decide
  · show lookup rules "./src/index.js" = none
    decide

/-! ## The loop of normalizeString -/

theorem slice_append_left (q x : List Char) (start stop : Nat) (h : stop ≤ q.length) :
    posix.slice (q ++ x) start stop = posix.slice q start stop := by
  simp only [posix.slice, List.take_append_of_le_length h]

/-- An iteration at an index inside a front part of the path reads nothing
behind that front part. -/
theorem normalizeStep_append_left (q x : List Char) (a : Bool) (st : posix.NormalizeState)
    (i : Nat) (c : Char) (h : i ≤ q.length) :
    posix.normalizeStep (q ++ x) a st i c = posix.normalizeStep q a st i c := by
  simp only [posix.normalizeStep, slice_append_left q x _ i h]

theorem normalizeStep_code (p : List Char) (a : Bool) (st : posix.NormalizeState)
    (i : Nat) (c : Char) : (posix.normalizeStep p a st i c).code = c := by
  simp only [posix.normalizeStep, posix.aboveRoot]
  repeat' split
  all_goals rfl

/-- The iterations over a front part of the path do not depend on what
follows it. -/
theorem foldl_normalizeStep_append_left (q x : List Char) (a : Bool) (st : posix.NormalizeState) :
    q.enum.foldl (fun st p => posix.normalizeStep (q ++ x) a st p.1 p.2) st =
      q.enum.foldl (fun st p => posix.normalizeStep q a st p.1 p.2) st := by
  apply List.foldl_ext
  intro s p hp
  exact normalizeStep_append_left q x a s p.1 p.2 (Nat.le_of_lt (List.fst_lt_of_mem_enum hp))

theorem normalizeLoop_append (q x : List Char) (a : Bool) :
    posix.normalizeLoop (q ++ x) a =
      (x.enumFrom q.length).foldl (fun st p => posix.normalizeStep (q ++ x) a st p.1 p.2)
        (posix.normalizeLoop q a) := by
  simp only [posix.normalizeLoop, List.enum_append, List.foldl_append,
    foldl_normalizeStep_append_left]

theorem normalizeLoop_concat (q : List Char) (c : Char) (a : Bool) :
    posix.normalizeLoop (q ++ [c]) a =
      posix.normalizeStep (q ++ [c]) a (posix.normalizeLoop q a) q.length c := by
  rw [normalizeLoop_append]
  rfl

theorem normalizeLoop_code (q : List Char) (c : Char) (a : Bool)
    (h : q.getLast? = some c) : (posix.normalizeLoop q a).code = c := by
  rcases List.eq_nil_or_concat q with rfl | ⟨q2, b, rfl⟩
  · simp at h
  · rw [List.concat_eq_append] at h ⊢
    rw [List.getLast?_concat] at h
    cases h
    rw [normalizeLoop_concat, normalizeStep_code]

/-- A slash added behind a path that does not end in one changes nothing
in what normalizeString returns. -/
theorem normalizeString_append_slash (q : List Char) (c : Char) (a : Bool)
    (h : q.getLast? = some c) (hc : c ≠ '/') :
    posix.normalizeString (q ++ ['/']) a = posix.normalizeString q a := by
  have h1 : (posix.normalizeLoop (q ++ ['/']) a).code = '/' :=
    normalizeLoop_code _ _ _ (List.getLast?_concat q)
  have h2 : (posix.normalizeLoop q a).code = c := normalizeLoop_code _ _ _ h
  have h3 : posix.isPosixPathSeparator c = false := by
    simp [posix.isPosixPathSeparator, hc]
  have h4 : posix.isPosixPathSeparator '/' = true := rfl
  simp only [posix.normalizeString, h1, h2, h3, h4, if_true, Bool.false_eq_true, if_false]
  rw [normalizeLoop_concat, normalizeStep_append_left q ['/'] a _ _ _ (Nat.le_refl _)]

/-! ## path.join and path.resolve on a directory and dist -/

theorem posix_join_dist (d : List Char) :
    posix.join ['/' :: d, "dist".data] =
      '/' :: posix.normalizeString ('/' :: d ++ "/dist".data) false := by
  have hlast : ('/' :: d ++ "/dist".data).getLast? = some 't' := by
    have : ('/' :: d ++ "/dist".data) = ('/' :: d ++ "/dis".data) ++ ['t'] := by
      simp
    rw [this, List.getLast?_concat]
  have hj : posix.joinArgs ['/' :: d, "dist".data] none = some ('/' :: d ++ "/dist".data) := by
    simp [posix.joinArgs]
  simp only [posix.join, hj, posix.normalize, hlast]
  by_cases hn : (posix.normalizeString ('/' :: d ++ "/dist".data) false).length = 0
  · have hnil := List.length_eq_zero.mp hn
    simp [hnil]
  · simp [hn]

theorem posix_resolve_dist (cwd d : List Char) :
    posix.resolve cwd ['/' :: d, "dist".data] =
      '/' :: posix.normalizeString (('/' :: d ++ "/dist".data) ++ ['/']) false := by
  have hr : posix.resolveArgs (['/' :: d, "dist".data].reverse ++ [cwd]) ([], false) =
      (('/' :: d ++ "/dist".data) ++ ['/'], true) := by
    simp [posix.resolveArgs]
  simp only [posix.resolve, hr]
  simp

/-- On every absolute directory, joining dist and resolving dist give the
same path. -/
theorem posix_join_eq_resolve (cwd d : List Char) (h : d.head? = some '/') :
    posix.join [d, "dist".data] = posix.resolve cwd [d, "dist".data] := by
  cases d with
  | nil => simp at h
  | cons x xs =>
    simp only [List.head?_cons, Option.some.injEq] at h
    subst h
    rw [posix_join_dist, posix_resolve_dist]
    have hlast : ('/' :: xs ++ "/dist".data).getLast? = some 't' := by
      have : ('/' :: xs ++ "/dist".data) = ('/' :: xs ++ "/dis".data) ++ ['t'] := by
        simp
      rw [this, List.getLast?_concat]
    rw [normalizeString_append_slash _ 't' false hlast (by decide)]

/-- C9: for every absolute directory taken as __dirname, the directory the
development server serves, path.join(__dirname, dist), is the output
directory of the bundle, path.resolve(__dirname, dist). -/
theorem C9_static_directory_is_output_path (cwd dirname : String)
    (h : path.isAbsolute dirname) :
    (moduleExports cwd dirname).devServer.static.directory =
      (moduleExports cwd dirname).output.path := by
  show String.mk (posix.join [dirname.data, "dist".data]) =
    String.mk (posix.resolve cwd.data [dirname.data, "dist".data])
  rw [posix_join_eq_resolve cwd.data dirname.data h]

theorem C9_static_directory_is_output_path_witness :
    path.isAbsolute "/home/user/project" ∧
      (moduleExports "/tmp" "/home/user/project").devServer.static.directory =
        (moduleExports "/tmp" "/home/user/project").output.path ∧
      (moduleExports "/tmp" "/home/user/project").output.path = "/home/user/project/dist" :=
  ⟨by decide, C9_static_directory_is_output_path "/tmp" "/home/user/project" (by decide),
    by decide⟩

/-! ## The file name of an image asset -/

/-- An iteration at a character that is no slash leaves the result and the
position of the last slash alone. -/
theorem normalizeStep_of_ne_slash (p : List Char) (a : Bool) (st : posix.NormalizeState)
    (i : Nat) (c : Char) (hc : c ≠ '/') :
    (posix.normalizeStep p a st i c).res = st.res ∧
      (posix.normalizeStep p a st i c).lastSlash = st.lastSlash := by
  have h : posix.isPosixPathSeparator c = false := by
    simp [posix.isPosixPathSeparator, hc]
  simp only [posix.normalizeStep, h, Bool.false_eq_true, if_false]
  split <;> exact ⟨rfl, rfl⟩

theorem normalizeStep_dots_of_ne (p : List Char) (a : Bool) (st : posix.NormalizeState)
    (i : Nat) (c : Char) (hc : c ≠ '/') (hd : c ≠ '.') :
    (posix.normalizeStep p a st i c).dots = -1 := by
  have h : posix.isPosixPathSeparator c = false := by
    simp [posix.isPosixPathSeparator, hc]
  simp [posix.normalizeStep, h, hd]

/-- The iterations over a run of characters without a slash leave the
result and the position of the last slash alone. -/
theorem foldl_normalizeStep_of_no_slash (p : List Char) (a : Bool) :
    ∀ (cs : List Char) (n : Nat) (st : posix.NormalizeState), '/' ∉ cs →
      ((cs.enumFrom n).foldl (fun st q => posix.normalizeStep p a st q.1 q.2) st).res = st.res ∧
      ((cs.enumFrom n).foldl (fun st q => posix.normalizeStep p a st q.1 q.2) st).lastSlash =
        st.lastSlash := by
  intro cs
  induction cs with
  | nil =>
    intro n st _
    exact ⟨rfl, rfl⟩
  | cons c cs ih =>
    intro n st h
    have hc : c ≠ '/' := fun e => h (by simp [e])
    have hcs : '/' ∉ cs := fun e => h (List.mem_cons_of_mem _ e)
    have h1 := normalizeStep_of_ne_slash p a st n c hc
    have h2 := ih (n + 1) (posix.normalizeStep p a st n c) hcs
    simp only [List.enumFrom_cons, List.foldl_cons]
    exact ⟨h2.1.trans h1.1, h2.2.trans h1.2⟩

/-- The state of the loop after a front part that ends in a slash and a
segment without a slash whose last character is no dot. -/
theorem normalizeLoop_segment (q seg : List Char) (c : Char) (a : Bool)
    (hseg : '/' ∉ seg ++ [c]) (hc : c ≠ '.') :
    (posix.normalizeLoop (q ++ (seg ++ [c])) a).res = (posix.normalizeLoop q a).res ∧
      (posix.normalizeLoop (q ++ (seg ++ [c])) a).lastSlash =
        (posix.normalizeLoop q a).lastSlash ∧
      (posix.normalizeLoop (q ++ (seg ++ [c])) a).dots = -1 ∧
      (posix.normalizeLoop (q ++ (seg ++ [c])) a).code = c := by
  have hc2 : c ≠ '/' := fun e => hseg (by simp [e])
  have hs : '/' ∉ seg := fun e => hseg (List.mem_append_left _ e)
  rw [normalizeLoop_append, List.enumFrom_append, List.foldl_append]
  simp only [List.enumFrom_singleton, List.foldl_cons, List.foldl_nil]
  have h1 := foldl_normalizeStep_of_no_slash (q ++ (seg ++ [c])) a seg q.length
    (posix.normalizeLoop q a) hs
  refine ⟨?_, ?_, ?_, ?_⟩
  · rw [(normalizeStep_of_ne_slash _ _ _ _ _ hc2).1]
    exact h1.1
  · rw [(normalizeStep_of_ne_slash _ _ _ _ _ hc2).2]
    exact h1.2
  · exact normalizeStep_dots_of_ne _ _ _ _ _ hc2 hc
  · exact normalizeStep_code _ _ _ _ _

theorem normalizeLoop_outputPath :
    posix.normalizeLoop "assets/images//".data true =
      { res := "assets/images".data, lastSegmentLength := 6, lastSlash := 14, dots := 0,
        code := '/' } := by
  decide

/-- What normalizeString returns for the joined outputPath and file name
when the file name is one segment that does not end in a dot. -/
theorem normalizeString_outputPath_segment (seg : List Char) (c : Char)
    (hseg : '/' ∉ seg ++ [c]) (hc : c ≠ '.') :
    posix.normalizeString ("assets/images//".data ++ (seg ++ [c])) true =
      "assets/images/".data ++ (seg ++ [c]) := by
  have hc2 : c ≠ '/' := fun e => hseg (by simp [e])
  obtain ⟨hres, hls, hdots, hcode⟩ :=
    normalizeLoop_segment "assets/images//".data seg c true hseg hc
  rw [normalizeLoop_outputPath] at hres hls
  have hsep : posix.isPosixPathSeparator c = false := by
    simp [posix.isPosixPathSeparator, hc2]
  have hsl : posix.isPosixPathSeparator '/' = true := rfl
  have hlen : ("assets/images//".data ++ (seg ++ [c])).length = 15 + (seg.length + 1) := by
    simp
    omega
  have hslice : posix.slice ("assets/images//".data ++ (seg ++ [c])) 15
      (15 + (seg.length + 1)) = seg ++ [c] := by
    have h15 : "assets/images//".data.length = 15 := rfl
    simp only [posix.slice]
    rw [← hlen, List.take_length, ← h15, List.drop_left]
  simp only [posix.normalizeString, hcode, hsep, Bool.false_eq_true, if_false,
    posix.normalizeStep, hsl, if_true, hls, hdots, hres, hlen]
  have hne : ¬ ((14 : Int) = ((15 + (seg.length + 1) : Nat) : Int) - 1 ∨ (-1 : Int) = 1) := by
    omega
  rw [if_neg hne, if_neg (by decide)]
  have hpos : "assets/images".data.length > 0 := by decide
  rw [if_pos hpos]
  show "assets/images".data ++
    '/' :: posix.slice ("assets/images//".data ++ (seg ++ [c])) 15 (15 + (seg.length + 1)) = _
  rw [hslice]
  rfl

theorem getLast?_of_suffix {w l : List Char} {x : Char} (h : w <:+ l)
    (hw : w.getLast? = some x) : l.getLast? = some x := by
  obtain ⟨t, rfl⟩ := h
  simp [List.getLast?_append, hw]

/-- A file name the image matcher accepts ends in the letter f or g. -/
theorem imageTest_getLast (s : String) (h : imageTest.test s = true) :
    s.data.getLast? = some 'f' ∨ s.data.getLast? = some 'g' := by
  rw [imageTest_iff] at h
  simp only [endsWith] at h
  rcases h with h | h | h | h | h
  · exact Or.inl (getLast?_of_suffix h rfl)
  · exact Or.inr (getLast?_of_suffix h rfl)
  · exact Or.inl (getLast?_of_suffix h rfl)
  · exact Or.inr (getLast?_of_suffix h rfl)
  · exact Or.inr (getLast?_of_suffix h rfl)

theorem replacePathVariables_filename (d : PathData) :
    replacePathVariables imageGenerator.filename d = d.name.data ++ d.ext.data := by
  show replaceFrom d "[name][ext]".data none = _
  simp [replaceFrom, placeholder, isWordChar, Char.isAlphanum, Char.isAlpha, Char.isDigit,
    Char.isUpper, Char.isLower]

theorem replacePathVariables_outputPath (d : PathData) :
    replacePathVariables imageGenerator.outputPath d = "assets/images/".data := by
  show replaceFrom d "assets/images/".data none = _
  simp [replaceFrom]

/-- The join of the outputPath of the image generator and a file name of
one segment that ends in the letter f or g. -/
theorem posix_join_outputPath (seg : List Char) (hs : '/' ∉ seg)
    (hl : seg = [] ∨ seg.getLast? = some 'f' ∨ seg.getLast? = some 'g') :
    posix.join ["assets/images/".data, seg] = "assets/images/".data ++ seg := by
  rcases List.eq_nil_or_concat seg with rfl | ⟨s, c, rfl⟩
  · decide
  · rw [List.concat_eq_append] at hs hl ⊢
    have hc : c ≠ '.' := by
      rcases hl with hl | hl | hl
      · simp at hl
      · rw [List.getLast?_concat] at hl
        cases hl
        decide
      · rw [List.getLast?_concat] at hl
        cases hl
        decide
    have hc2 : c ≠ '/' := fun e => hs (by simp [e])
    have hj : posix.joinArgs ["assets/images/".data, s ++ [c]] none =
        some ("assets/images//".data ++ (s ++ [c])) := by
      simp [posix.joinArgs]
    have hn := normalizeString_outputPath_segment s c hs hc
    have hlast : ("assets/images//".data ++ (s ++ [c])).getLast? = some c := by
      rw [← List.append_assoc, List.getLast?_concat]
    have hhead : ("assets/images//".data ++ (s ++ [c])).head? = some 'a' := rfl
    have hlen : ("assets/images//".data ++ (s ++ [c])).length ≠ 0 := by
      simp
    have hlen2 : ("assets/images/".data ++ (s ++ [c])).length ≠ 0 := by
      simp
    simp only [posix.join, hj, posix.normalize, hlast, hhead, hlen, if_false]
    have h1 : (some 'a' = some '/') = False := by decide
    have h2 : (some c = some '/') = False := by simp [hc2]
    simp only [h1, h2, decide_False, Bool.not_false, hn, hlen2, if_false]

/-- The asset file name the image generator gives a resource that has no
slash behind its directory part and that the image matcher accepts. -/
theorem assetFilename_imageGenerator (d : PathData) (h : isImageAsset d) :
    assetFilename imageGenerator d = "assets/images/" ++ d.name ++ d.ext := by
  obtain ⟨hs, ht⟩ := h
  apply String.ext
  simp only [assetFilename, replacePathVariables_filename, replacePathVariables_outputPath,
    String.data_append, List.append_assoc]
  simp only [String.data_append] at hs
  apply posix_join_outputPath _ hs
  by_cases hnil : d.name.data ++ d.ext.data = []
  · exact Or.inl hnil
  · right
    have hl := imageTest_getLast d.file ht
    have hfile : d.file.data = d.path.data ++ (d.name.data ++ d.ext.data) := by
      simp [PathData.file, String.data_append]
    rw [hfile, List.getLast?_append_of_ne_nil _ hnil] at hl
    exact hl

/-- C5: for every image asset with base name N and extension E, the
filename template of the image rule under its outputPath gives exactly
assets/images/ followed by N and E; the result is the same for every image
asset with the same N and E, whatever its directory. -/
theorem C5_image_output_path (d : PathData) (h : isImageAsset d) :
    imageRule.generator.map (fun g => assetFilename g d) =
        some ("assets/images/" ++ d.name ++ d.ext) ∧
      ∀ d2 : PathData, isImageAsset d2 → d2.name = d.name → d2.ext = d.ext →
        assetFilename imageGenerator d2 = assetFilename imageGenerator d := by
  constructor
  · show some (assetFilename imageGenerator d) = _
    rw [assetFilename_imageGenerator d h]
  · intro d2 h2 hn he
    rw [assetFilename_imageGenerator d h, assetFilename_imageGenerator d2 h2, hn, he]

theorem C5_image_output_path_witness :
    isImageAsset { path := "src/img/", name := "logo", ext := ".png" } ∧
      imageRule.generator.map
          (fun g => assetFilename g { path := "src/img/", name := "logo", ext := ".png" }) =
        some "assets/images/logo.png" :=
  ⟨by decide,
    (C5_image_output_path { path := "src/img/", name := "logo", ext := ".png" }
      (by decide)).1⟩

/-- C6, as stated, fails: two image assets with different source paths
to which the image generator assigns one output path. -/
theorem C6_same_output_path_counterexample :
    isImageAsset { path := "src/a/", name := "logo", ext := ".png" } ∧
      isImageAsset { path := "src/b/", name := "logo", ext := ".png" } ∧
      PathData.file { path := "src/a/", name := "logo", ext := ".png" } ≠
        PathData.file { path := "src/b/", name := "logo", ext := ".png" } ∧
      assetFilename imageGenerator { path := "src/a/", name := "logo", ext := ".png" } =
        assetFilename imageGenerator { path := "src/b/", name := "logo", ext := ".png" } := by
  decide

/-- C6, amended: two image assets are assigned the same output path
exactly when their file names (base name followed by extension) are equal;
image assets with different file names get different output paths. -/
theorem C6_output_paths_by_file_name (a b : PathData) (ha : isImageAsset a)
    (hb : isImageAsset b) :
    assetFilename imageGenerator a = assetFilename imageGenerator b ↔
      a.name ++ a.ext = b.name ++ b.ext := by
  rw [assetFilename_imageGenerator a ha, assetFilename_imageGenerator b hb]
  simp only [String.append_assoc]
  constructor
  · intro h
    have h2 := congrArg String.data h
    simp only [String.data_append] at h2
    exact String.ext (by simpa [String.data_append] using List.append_cancel_left h2)
  · intro h
    rw [h]

theorem C6_output_paths_by_file_name_witness :
    isImageAsset { path := "src/a/", name := "logo", ext := ".png" } ∧
      isImageAsset { path := "src/a/", name := "icon", ext := ".png" } ∧
      (assetFilename imageGenerator { path := "src/a/", name := "logo", ext := ".png" } =
          assetFilename imageGenerator { path := "src/a/", name := "icon", ext := ".png" } ↔
        "logo" ++ ".png" = "icon" ++ ".png") :=
  ⟨by decide, by decide,
    C6_output_paths_by_file_name { path := "src/a/", name := "logo", ext := ".png" }
      { path := "src/a/", name := "icon", ext := ".png" } (by decide) (by decide)⟩

namespace Orchestrator

/-! ## The scheduler on acyclic graphs -/

theorem node_eq_of_id_eq {g : BuildGraph} (hres : g.Resolved) {n m : AssetNode}
    (hn : n ∈ g.nodes) (hm : m ∈ g.nodes) (h : n.id = m.id) : n = m :=
  List.inj_on_of_nodup_map hres.1 hn hm h

/-- In an acyclic graph whose references resolve, some pending node is
ready as long as a node is pending. -/
theorem exists_ready {g : BuildGraph} (hres : g.Resolved) (hac : g.Acyclic)
    {st : SchedulerState} (hsub : st.pending.Sublist g.nodes)
    (hcomplete : ∀ id ∈ g.ids, id ∈ completed st.log ∨ id ∈ st.pending.map AssetNode.id)
    (hne : st.pending ≠ []) : ∃ n ∈ st.pending, isReady st.log n = true := by
  haveI : Finite {x : String // x ∈ g.ids} := (List.finite_toSet g.ids).to_subtype
  let r : {x : String // x ∈ g.ids} → {x : String // x ∈ g.ids} → Prop :=
    fun x y => Relation.TransGen g.dependsOn y.1 x.1
  haveI : IsTrans {x : String // x ∈ g.ids} r := ⟨fun _ _ _ hab hbc => hbc.trans hab⟩
  haveI : IsIrrefl {x : String // x ∈ g.ids} r := ⟨fun a h => hac a.1 h⟩
  have wf : WellFounded r := Finite.wellFounded_of_trans_of_irrefl r
  obtain ⟨n0, hn0⟩ := List.exists_mem_of_ne_nil _ hne
  have hn0g : n0.id ∈ g.ids := List.mem_map_of_mem _ (hsub.subset hn0)
  have hn0p : n0.id ∈ st.pending.map AssetNode.id := List.mem_map_of_mem _ hn0
  obtain ⟨m, hm, hmin⟩ := wf.has_min {x | x.1 ∈ st.pending.map AssetNode.id}
    ⟨⟨n0.id, hn0g⟩, hn0p⟩
  obtain ⟨n, hn, hnid⟩ := List.mem_map.mp hm
  refine ⟨n, hn, ?_⟩
  simp only [isReady, List.all_eq_true, decide_eq_true_eq]
  intro ref href
  have hrefg : ref ∈ g.ids := hres.2 n (hsub.subset hn) ref href
  rcases hcomplete ref hrefg with hc | hp
  · exact hc
  · exfalso
    apply hmin ⟨ref, hrefg⟩ hp
    exact Relation.TransGen.single ⟨n, hsub.subset hn, hnid, href⟩

theorem batch_sublist (workers : Nat) (st : SchedulerState) :
    (batch workers st).Sublist st.pending :=
  (List.take_sublist _ _).trans (List.filter_sublist _)

theorem completed_append (a b : List Event) :
    completed (a ++ b) = completed a ++ completed b := by
  simp [completed]

theorem executed_append (a b : List Event) :
    executed (a ++ b) = executed a ++ executed b := by
  simp [executed]

theorem completed_starts (cache : String → Bool) (log : List Event) (b : List AssetNode) :
    completed (b.filterMap (startEvent cache log)) = [] := by
  induction b with
  | nil => rfl
  | cons n b ih =>
    simp only [completed] at ih
    by_cases h : executes cache log n = true
    · simp [completed, startEvent, h, List.filterMap_cons, Event.finishedId?, ih]
    · simp [completed, startEvent, h, List.filterMap_cons, ih]

theorem completed_finishes (f : AssetNode → Outcome) (b : List AssetNode) :
    completed (b.map (fun n => Event.finished n.id (f n))) = b.map AssetNode.id := by
  induction b with
  | nil => rfl
  | cons n b ih =>
    simp only [completed] at ih
    simp [completed, List.filterMap_cons, Event.finishedId?, ih]

theorem executed_finishes (f : AssetNode → Outcome) (b : List AssetNode) :
    executed (b.map (fun n => Event.finished n.id (f n))) = [] := by
  induction b with
  | nil => rfl
  | cons n b ih =>
    simp only [executed] at ih
    simp [executed, List.filterMap_cons, Event.startedId?, ih]

theorem executed_starts_sublist (cache : String → Bool) (log : List Event)
    (b : List AssetNode) :
    (executed (b.filterMap (startEvent cache log))).Sublist (b.map AssetNode.id) := by
  induction b with
  | nil => exact List.Sublist.slnil
  | cons n b ih =>
    simp only [executed] at ih
    by_cases h : executes cache log n = true
    · simp only [executed, List.filterMap_cons, startEvent, h, if_true, Event.startedId?,
        List.map_cons]
      exact ih.cons₂ _
    · simp only [executed, List.filterMap_cons, startEvent, h, Bool.false_eq_true, if_false,
        List.map_cons]
      exact ih.cons _

theorem round_log (workers : Nat) (fails cache : String → Bool) (st : SchedulerState) :
    (round workers fails cache st).log =
      st.log ++ ((batch workers st).filterMap (startEvent cache st.log) ++
        (batch workers st).map
          (fun n => Event.finished n.id (outcomeOf fails cache st.log n))) := by
  simp [round, List.append_assoc]

theorem round_completed (workers : Nat) (fails cache : String → Bool) (st : SchedulerState) :
    completed (round workers fails cache st).log =
      completed st.log ++ (batch workers st).map AssetNode.id := by
  rw [round_log, completed_append, completed_append, completed_starts, completed_finishes,
    List.nil_append]

theorem round_executed_sublist (workers : Nat) (fails cache : String → Bool)
    (st : SchedulerState) :
    ∃ x, executed (round workers fails cache st).log = executed st.log ++ x ∧
      x.Sublist ((batch workers st).map AssetNode.id) := by
  refine ⟨executed ((batch workers st).filterMap (startEvent cache st.log)), ?_,
    executed_starts_sublist _ _ _⟩
  rw [round_log, executed_append, executed_append, executed_finishes, List.append_nil]

theorem inv_init {g : BuildGraph} : Inv g { pending := g.nodes, log := [] } where
  pending_sub := List.Sublist.refl _
  completed_nodup := List.nodup_nil
  completed_sound := by
    intro id h
    simp [completed] at h
  complete := by
    intro id h
    exact Or.inr h
  executed_nodup := List.nodup_nil
  executed_sub := by
    intro id h
    simp [executed] at h
  ordered := by
    intro i n _ h
    simp at h

theorem mem_round_pending {workers : Nat} {fails cache : String → Bool}
    {st : SchedulerState} {n : AssetNode} :
    n ∈ (round workers fails cache st).pending ↔
      n ∈ st.pending ∧ n.id ∉ (batch workers st).map AssetNode.id := by
  simp [round, List.mem_filter]

/-- A start event of a round belongs to a node of the batch whose chain is
executed. -/
theorem started_mem_round {workers : Nat} {fails cache : String → Bool}
    {st : SchedulerState} {id : String}
    (h : Event.started id ∈ (batch workers st).filterMap (startEvent cache st.log) ++
      (batch workers st).map
        (fun n => Event.finished n.id (outcomeOf fails cache st.log n))) :
    ∃ m ∈ batch workers st, m.id = id ∧ executes cache st.log m = true := by
  rcases List.mem_append.mp h with h | h
  · obtain ⟨m, hm, hs⟩ := List.mem_filterMap.mp h
    refine ⟨m, hm, ?_⟩
    by_cases he : executes cache st.log m = true
    · simp only [startEvent, he, if_true, Option.some.injEq, Event.started.injEq] at hs
      exact ⟨hs, he⟩
    · simp [startEvent, he] at hs
  · obtain ⟨m, _, hs⟩ := List.mem_map.mp h
    cases hs

theorem hasSucceeded_getElem? {log : List Event} {id : String}
    (h : hasSucceeded log id = true) :
    ∃ j, j < log.length ∧ ∃ o : Outcome, o.succeeded = true ∧
      log[j]? = some (Event.finished id o) := by
  simp only [hasSucceeded, decide_eq_true_eq] at h
  rcases h with h | h
  · obtain ⟨j, hj⟩ := List.mem_iff_getElem?.mp h
    have hlt : j < log.length := by
      by_contra hge
      rw [List.getElem?_eq_none (Nat.le_of_not_lt hge)] at hj
      cases hj
    exact ⟨j, hlt, Outcome.transformed, rfl, hj⟩
  · obtain ⟨j, hj⟩ := List.mem_iff_getElem?.mp h
    have hlt : j < log.length := by
      by_contra hge
      rw [List.getElem?_eq_none (Nat.le_of_not_lt hge)] at hj
      cases hj
    exact ⟨j, hlt, Outcome.cacheHit, rfl, hj⟩

/-- A round keeps the invariant. -/
theorem inv_round {g : BuildGraph} (hres : g.Resolved) (workers : Nat)
    (fails cache : String → Bool) {st : SchedulerState} (inv : Inv g st) :
    Inv g (round workers fails cache st) := by
  have hb : (batch workers st).Sublist st.pending := batch_sublist workers st
  have hbids : ∀ id ∈ (batch workers st).map AssetNode.id,
      id ∈ st.pending.map AssetNode.id := (hb.map _).subset
  have hpids : ∀ id ∈ st.pending.map AssetNode.id, id ∈ g.ids :=
    (inv.pending_sub.map _).subset
  have hbnodup : ((batch workers st).map AssetNode.id).Nodup :=
    List.Nodup.sublist ((hb.trans inv.pending_sub).map _) hres.1
  obtain ⟨x, hx, hxsub⟩ := round_executed_sublist workers fails cache st
  refine
    { pending_sub := ?_
      completed_nodup := ?_
      completed_sound := ?_
      complete := ?_
      executed_nodup := ?_
      executed_sub := ?_
      ordered := ?_ }
  · exact (List.filter_sublist _).trans inv.pending_sub
  · rw [round_completed]
    refine List.nodup_append.mpr ⟨inv.completed_nodup, hbnodup, ?_⟩
    intro id h1 h2
    exact (inv.completed_sound id h1).2 (hbids id h2)
  · intro id h
    rw [round_completed] at h
    rcases List.mem_append.mp h with h | h
    · refine ⟨(inv.completed_sound id h).1, ?_⟩
      intro hp
      obtain ⟨n, hn, hnid⟩ := List.mem_map.mp hp
      exact (inv.completed_sound id h).2 (hnid ▸ List.mem_map_of_mem _ (mem_round_pending.mp hn).1)
    · refine ⟨hpids id (hbids id h), ?_⟩
      intro hp
      obtain ⟨n, hn, hnid⟩ := List.mem_map.mp hp
      exact (mem_round_pending.mp hn).2 (hnid ▸ h)
  · intro id h
    rw [round_completed]
    rcases inv.complete id h with hc | hp
    · exact Or.inl (List.mem_append_left _ hc)
    · by_cases hbm : id ∈ (batch workers st).map AssetNode.id
      · exact Or.inl (List.mem_append_right _ hbm)
      · right
        obtain ⟨n, hn, hnid⟩ := List.mem_map.mp hp
        exact List.mem_map.mpr ⟨n, mem_round_pending.mpr ⟨hn, hnid ▸ hbm⟩, hnid⟩
  · rw [hx]
    refine List.nodup_append.mpr ⟨inv.executed_nodup, List.Nodup.sublist hxsub hbnodup, ?_⟩
    intro id h1 h2
    exact (inv.completed_sound id (inv.executed_sub id h1)).2 (hbids id (hxsub.subset h2))
  · intro id h
    rw [hx] at h
    rw [round_completed]
    rcases List.mem_append.mp h with h | h
    · exact List.mem_append_left _ (inv.executed_sub id h)
    · exact List.mem_append_right _ (hxsub.subset h)
  · intro i n hn hi r hr
    rw [round_log] at hi ⊢
    by_cases hlt : i < st.log.length
    · rw [List.getElem?_append_left hlt] at hi
      obtain ⟨j, hj, o, ho, hjo⟩ := inv.ordered i n hn hi r hr
      refine ⟨j, hj, o, ho, ?_⟩
      rw [List.getElem?_append_left (Nat.lt_trans hj hlt)]
      exact hjo
    · have hge : st.log.length ≤ i := Nat.le_of_not_lt hlt
      rw [List.getElem?_append_right hge] at hi
      obtain ⟨m, hm, hmid, hex⟩ := started_mem_round (List.getElem?_mem hi)
      have hmn : m = n :=
        node_eq_of_id_eq hres ((hb.trans inv.pending_sub).subset hm) hn hmid
      subst hmn
      simp only [executes, Bool.and_eq_true, List.all_eq_true] at hex
      obtain ⟨j, hj, o, ho, hjo⟩ := hasSucceeded_getElem? (hex.1 r hr)
      refine ⟨j, Nat.lt_of_lt_of_le hj hge, o, ho, ?_⟩
      rw [List.getElem?_append_left hj]
      exact hjo

/-- A round with a worker completes at least one pending node. -/
theorem round_pending_lt {g : BuildGraph} (hres : g.Resolved) (hac : g.Acyclic)
    {workers : Nat} (hw : 0 < workers) (fails cache : String → Bool)
    {st : SchedulerState} (inv : Inv g st) (hne : st.pending ≠ []) :
    (round workers fails cache st).pending.length < st.pending.length := by
  obtain ⟨n, hn, hready⟩ := exists_ready hres hac inv.pending_sub inv.complete hne
  have hf : st.pending.filter (isReady st.log) ≠ [] := by
    intro h
    have : n ∈ st.pending.filter (isReady st.log) := List.mem_filter.mpr ⟨hn, hready⟩
    rw [h] at this
    cases this
  obtain ⟨b, bs, hbs⟩ := List.exists_cons_of_ne_nil hf
  obtain ⟨w, rfl⟩ := Nat.exists_eq_succ_of_ne_zero (Nat.pos_iff_ne_zero.mp hw)
  have hb : b ∈ batch (w + 1) st := by
    simp [batch, hbs]
  have hbp : b ∈ st.pending := (batch_sublist _ st).subset hb
  simp only [round]
  rw [List.length_filter_lt_length_iff_exists]
  refine ⟨b, hbp, ?_⟩
  simp only [decide_eq_true_eq, not_not]
  exact List.mem_map_of_mem _ hb

/-- As many rounds as there are pending nodes empty the queue and keep
the invariant. -/
theorem rounds_spec {g : BuildGraph} (hres : g.Resolved) (hac : g.Acyclic)
    {workers : Nat} (hw : 0 < workers) (fails cache : String → Bool) :
    ∀ (k : Nat) (st : SchedulerState), Inv g st → st.pending.length ≤ k →
      Inv g (rounds workers fails cache k st) ∧
        (rounds workers fails cache k st).pending = [] := by
  intro k
  induction k with
  | zero =>
    intro st inv hk
    exact ⟨inv, List.length_eq_zero.mp (Nat.le_zero.mp hk)⟩
  | succ k ih =>
    intro st inv hk
    by_cases he : st.pending = []
    · have hr : rounds workers fails cache (k + 1) st = st := by
        simp [rounds, he]
      rw [hr]
      exact ⟨inv, he⟩
    · have hemp : st.pending.isEmpty = false := by
        cases hp : st.pending with
        | nil => exact absurd hp he
        | cons a l => rfl
      simp only [rounds, hemp, Bool.false_eq_true, if_false]
      apply ih _ (inv_round hres workers fails cache inv)
      have := round_pending_lt hres hac hw fails cache inv he
      omega

end Orchestrator

/-- C7: on every acyclic build graph whose references resolve, a run of
the scheduler with at least one worker completes the visit of every node
exactly once, starts no chain twice, and starts the chain of a node only
after the visits of all its dependencies have completed with success. -/
theorem C7_scheduler_visits_once_in_dependency_order (g : Orchestrator.BuildGraph)
    (workers : Nat) (fails cache : String → Bool) (hres : g.Resolved) (hac : g.Acyclic)
    (hw : 0 < workers) :
    (Orchestrator.completed (Orchestrator.run workers fails cache g)).Perm g.ids ∧
      (Orchestrator.executed (Orchestrator.run workers fails cache g)).Nodup ∧
      ∀ (i : Nat) (n : Orchestrator.AssetNode), n ∈ g.nodes →
        (Orchestrator.run workers fails cache g)[i]? =
          some (Orchestrator.Event.started n.id) →
        ∀ r ∈ n.references, ∃ j, j < i ∧ ∃ o : Orchestrator.Outcome, o.succeeded = true ∧
          (Orchestrator.run workers fails cache g)[j]? =
            some (Orchestrator.Event.finished r o) := by
  obtain ⟨inv, hp⟩ := Orchestrator.rounds_spec hres hac hw fails cache g.nodes.length
    { pending := g.nodes, log := [] } Orchestrator.inv_init (Nat.le_refl _)
  refine ⟨?_, inv.executed_nodup, inv.ordered⟩
  apply (List.perm_ext_iff_of_nodup inv.completed_nodup hres.1).mpr
  intro id
  constructor
  · intro h
    exact (inv.completed_sound id h).1
  · intro h
    rcases inv.complete id h with hc | hq
    · exact hc
    · rw [hp] at hq
      cases hq

namespace Orchestrator

/-- A graph with a rank that falls along every dependency edge is
acyclic. -/
theorem acyclic_of_rank (g : BuildGraph) (rank : String → Nat)
    (h : ∀ a b, g.dependsOn a b → rank b < rank a) : g.Acyclic := by
  have ht : ∀ a b, Relation.TransGen g.dependsOn a b → rank b < rank a := by
    intro a b hab
    induction hab with
    | single hab => exact h _ _ hab
    | tail _ hbc ih => exact Nat.lt_trans (h _ _ hbc) ih
  intro a haa
  exact Nat.lt_irrefl _ (ht a a haa)

theorem exampleGraph_resolved : exampleGraph.Resolved := by
  unfold BuildGraph.Resolved
  decide

theorem exampleGraph_acyclic : exampleGraph.Acyclic := by
  apply acyclic_of_rank exampleGraph
    (fun s => if s = "/app/src/index.js" then 2 else if s = "/app/src/style.css" then 1 else 0)
  rintro a b ⟨n, hn, rfl, hb⟩
  simp only [exampleGraph, List.mem_cons, List.mem_singleton, List.not_mem_nil,
    or_false] at hn
  rcases hn with rfl | rfl | rfl
  · simp only [List.mem_cons, List.mem_singleton, List.not_mem_nil, or_false] at hb
    rcases hb with rfl | rfl <;> decide
  · simp only [List.mem_cons, List.mem_singleton, List.not_mem_nil, or_false] at hb
    subst hb
    decide
  · simp at hb

end Orchestrator

theorem C7_scheduler_visits_once_in_dependency_order_witness :
    Orchestrator.exampleGraph.Resolved ∧ Orchestrator.exampleGraph.Acyclic ∧ 0 < 2 ∧
      Orchestrator.run 2 (fun _ => false) (fun _ => false) Orchestrator.exampleGraph =
        [ .started "/app/src/logo.png",
          .finished "/app/src/logo.png" .transformed,
          .started "/app/src/style.css",
          .finished "/app/src/style.css" .transformed,
          .started "/app/src/index.js",
          .finished "/app/src/index.js" .transformed ] ∧
      (Orchestrator.completed
          (Orchestrator.run 2 (fun _ => false) (fun _ => false) Orchestrator.exampleGraph)).Perm
        Orchestrator.exampleGraph.ids :=
  ⟨Orchestrator.exampleGraph_resolved, Orchestrator.exampleGraph_acyclic, by decide,
    by decide,
    (C7_scheduler_visits_once_in_dependency_order Orchestrator.exampleGraph 2
      (fun _ => false) (fun _ => false) Orchestrator.exampleGraph_resolved
      Orchestrator.exampleGraph_acyclic (by decide)).1⟩

end WebpackConfig
